import Mathlib

/-!
Shallow embedding of the ranking and diversification engine of
src/services/recommendation_engine_v2.py.

Modelling conventions:
* Python numeric data (floats and ints appearing in markets, profiles,
  enrichment payloads, weights) is modelled as exact rationals (every Python
  float denotes a rational number).
* Scores that are computed through `math.sqrt` (cosine similarity and hence
  the semantic scorer and the total score) are modelled in ℝ with the exact
  square root; all other computed scores stay in ℚ.
* Python dicts with string keys are modelled as association lists in insertion
  order; `dict.get(k, d)` becomes an association-list lookup with default.
* Optional dict entries of the market / analysis payloads are modelled as
  Option fields; `market.get("x", d)` becomes `(m.x).getD d`.
* Python's `s.lower()` is modelled as mapping `Char.toLower` over the
  characters, and `a in b` on strings as contiguous-sublist search.
-/

/-- Characterwise lower-casing, the model of Python's str.lower(). -/
def lowerStr (s : String) : String := String.mk (s.data.map Char.toLower)

/-- Does the second list start with the first one? -/
def hasPreCL : List Char → List Char → Bool
  | [], _ => true
  | _ :: _, [] => false
  | p :: ps, c :: cs => p == c && hasPreCL ps cs

/-- Contiguous-substring search on character lists: second argument occurs in the first. -/
def hasSubCL : List Char → List Char → Bool
  | [], pat => pat.isEmpty
  | c :: cs, pat => hasPreCL pat (c :: cs) || hasSubCL cs pat

/-- Model of Python's `pat in hay` on strings. -/
def strIn (pat hay : String) : Bool := hasSubCL hay.data pat.data

/-- Association-list lookup, the model of a string-keyed Python dict read. -/
def alistFind {α : Type} (l : List (String × α)) (k : String) : Option α :=
  (l.find? (fun kv => kv.1 == k)).map (fun kv => kv.2)

/-- GEN_Z_CATEGORIES from the source, in insertion order. -/
def genZCategories : List (String × List String) :=
  [ ("politics",
      ["election", "trump", "biden", "congress", "president", "vote", "democracy",
       "senate", "polls", "debate", "campaign", "governor", "mayor", "republican", "democrat"]),
    ("crypto",
      ["bitcoin", "ethereum", "nft", "defi", "web3", "crypto", "blockchain",
       "btc", "eth", "solana", "binance", "coinbase", "wallet", "dex", "dao",
       "token", "coin", "mining", "hodl", "moon", "lambo"]),
    ("tech",
      ["ai", "startup", "tesla", "apple", "meta", "google", "tech", "openai",
       "chatgpt", "robot", "drone", "space", "spacex", "elon", "innovation",
       "software", "app", "platform", "gadget", "iphone", "android"]),
    ("sports",
      ["nfl", "nba", "fifa", "soccer", "football", "basketball", "sports",
       "championship", "playoffs", "superbowl", "worldcup", "olympics",
       "lebron", "curry", "mahomes", "messi", "ronaldo", "athlete"]),
    ("culture",
      ["music", "movie", "celebrity", "tiktok", "instagram", "viral", "meme",
       "taylor", "drake", "beyonce", "kardashian", "netflix", "spotify",
       "concert", "festival", "grammy", "oscar", "emmy", "influencer",
       "cancelled", "ratio", "trending"]),
    ("finance",
      ["stock", "market", "economy", "recession", "inflation", "fed", "wall street",
       "nasdaq", "dow", "s&p", "bull", "bear", "invest", "portfolio",
       "nvidia", "microsoft", "amazon", "tesla stock"]),
    ("degen",
      ["meme", "yolo", "moon", "pump", "ape", "degen", "longshot",
       "underdog", "upset", "wildcard", "gamble", "bet", "risky"]) ]

/-- GEN_Z_SLANG keys from the source (only the keys are ever tested). -/
def genZSlangKeys : List String :=
  ["ratio", "no cap", "fr", "bussin", "mid", "goat", "slay", "stan", "vibe", "based"]

/-- detect_category: keyword hits over the categories (first hit per category),
then the slang check mapping to "culture", finally a set conversion (the
detected list is duplicate-free, so only the set identity matters downstream). -/
def detectCategory (text : String) : List String :=
  let tl := lowerStr text
  let detected := genZCategories.foldl
    (fun acc kv => if kv.2.any (fun kw => strIn kw tl) then acc ++ [kv.1] else acc) []
  let detected :=
    if genZSlangKeys.any (fun sl => strIn sl tl) then
      (if detected.contains "culture" then detected else detected ++ ["culture"])
    else detected
  detected.dedup

/-- The enrichment "risk_level" is duck-typed in the source: either a string
label or a number. -/
inductive RiskValue : Type
  | str (s : String)
  | num (q : ℚ)
deriving DecidableEq

/-- Optional AI-analysis payload attached to a market (fields absent from the
dict are `none`). -/
structure Analysis : Type where
  embedding : Option (List ℚ) := none
  confidence : Option ℚ := none
  riskLevel : Option RiskValue := none
  sentiment : Option String := none
  volatility : Option ℚ := none
  socialBuzz : Option ℚ := none
deriving DecidableEq

/-- A market dict; fields read via `.get` with a default are Options. -/
structure Market : Type where
  id : String := ""
  title : Option String := none
  description : Option String := none
  category : Option String := none
  volume : Option ℚ := none
  liquidity : Option ℚ := none
  oddsYes : Option ℚ := none
  oddsNo : Option ℚ := none
  volume24h : Option ℚ := none
  volume7d : Option ℚ := none
  traders24h : Option ℚ := none
  priceChange24h : Option ℚ := none
deriving DecidableEq

/-- UserHistoryEvent from the source. -/
structure UserHistoryEvent : Type where
  marketId : String
  action : String
  category : String
  riskLevel : String
  timestamp : ℚ
  engagementScore : ℚ := 1
deriving DecidableEq

/-- UserProfile from the source; category_weights is an insertion-ordered dict. -/
structure UserProfile : Type where
  userId : String
  categories : List String := []
  riskTolerance : String := "medium"
  categoryWeights : List (String × ℚ) := []
  riskAdjustment : ℚ := 0
  history : List UserHistoryEvent := []
  interestEmbedding : Option (List ℚ) := none
  minVolume : ℚ := 0
  minConfidence : ℚ := 0
  sentimentPreference : Option String := none
  timeHorizon : String := "balanced"
deriving DecidableEq

/-- category_weights.get(key, 1.0). -/
def getWeight (l : List (String × ℚ)) (k : String) : ℚ :=
  (alistFind l k).getD 1

/-- Python dict assignment `d[k] = v`: overwrite in place if the key exists,
otherwise append. -/
def setWeight (l : List (String × ℚ)) (k : String) (v : ℚ) : List (String × ℚ) :=
  if l.any (fun kv => kv.1 == k) then
    l.map (fun kv => if kv.1 == k then (k, v) else kv)
  else l ++ [(k, v)]

/-- learn_from_interaction: append the event, bump the category weight
(clamped above by 2), nudge risk_adjustment (clamped to [-1,1]). -/
def learnFromInteraction (p : UserProfile) (e : UserHistoryEvent) : UserProfile :=
  let p1 := { p with history := p.history ++ [e] }
  let p2 :=
    if e.category ≠ "" then
      let current := getWeight p1.categoryWeights e.category
      let cw := setWeight p1.categoryWeights e.category
        (min 2 (current + (1/10) * e.engagementScore))
      { p1 with categoryWeights := cw }
    else p1
  match alistFind [("safe", (-(1:ℚ)/2)), ("medium", 0), ("degen", 1/2)] e.riskLevel with
  | some rv =>
      let ra := max (-1) (min 1 (p2.riskAdjustment + rv * (1/20) * e.engagementScore))
      { p2 with riskAdjustment := ra }
  | none => p2

/-- get_effective_risk_tolerance. -/
def effectiveRiskTolerance (p : UserProfile) : String :=
  let base := (alistFind [("safe", (-(1:ℚ)/2)), ("medium", 0), ("degen", 1/2)] p.riskTolerance).getD 0
  let adjusted := base + p.riskAdjustment
  if adjusted < -(1/4) then "safe"
  else if (1/4) < adjusted then "degen"
  else "medium"

/-- Weights from the source (defaults as in the dataclass). -/
structure Weights : Type where
  semantic : ℚ := 3/10
  category : ℚ := 1/5
  risk : ℚ := 3/20
  trend : ℚ := 3/20
  volume : ℚ := 1/10
  confidence : ℚ := 1/20
  sentiment : ℚ := 1/20
deriving DecidableEq

/-- The total of the seven weight entries. -/
def sumW (w : Weights) : ℚ :=
  w.semantic + w.category + w.risk + w.trend + w.volume + w.confidence + w.sentiment

/-- Weights.normalize: divide every entry by the total when it is positive,
otherwise leave the vector untouched. -/
def normalizeW (w : Weights) : Weights :=
  if 0 < sumW w then
    { semantic := w.semantic / sumW w
      category := w.category / sumW w
      risk := w.risk / sumW w
      trend := w.trend / sumW w
      volume := w.volume / sumW w
      confidence := w.confidence / sumW w
      sentiment := w.sentiment / sumW w }
  else w

/-- Legacy user_preferences dict (only the keys read by the source). -/
structure Prefs : Type where
  categories : List String := []
  riskTolerance : String := "medium"
  minVolume : ℚ := 0
  minConfidence : ℚ := 0
  sentimentPreference : Option String := none
  interestEmbedding : Option (List ℚ) := none
deriving DecidableEq

/-- _build_profile_from_preferences. -/
def buildProfileFromPrefs (prefs : Prefs) : UserProfile :=
  { userId := "anonymous"
    categories := prefs.categories
    riskTolerance := prefs.riskTolerance
    minVolume := prefs.minVolume
    minConfidence := prefs.minConfidence
    sentimentPreference := prefs.sentimentPreference
    interestEmbedding := prefs.interestEmbedding }

/-- Dot product of two rational vectors (zip truncates like Python's zip). -/
def dotQ (a b : List ℚ) : ℚ := (List.zipWith (· * ·) a b).sum

/-- Euclidean norm of a rational vector, as a real number. -/
noncomputable def normR (a : List ℚ) : ℝ := Real.sqrt ((dotQ a a : ℚ) : ℝ)

/-- _cosine_similarity: 0 for mismatched lengths or a zero norm, otherwise
the exact cosine. -/
noncomputable def cosineSimilarity (a b : List ℚ) : ℝ :=
  if a.length ≠ b.length then 0
  else if normR a = 0 ∨ normR b = 0 then 0
  else ((dotQ a b : ℚ) : ℝ) / (normR a * normR b)

/-- Size of the intersection of two (duplicate-free) tag lists. -/
def interTags (a b : List String) : ℕ := (a.filter (fun t => b.contains t)).length

/-- Size of the union of two (duplicate-free) tag lists. -/
def unionTags (a b : List String) : ℕ :=
  a.length + (b.filter (fun t => !a.contains t)).length

/-- The Jaccard fallback of _score_semantic (tag overlap, neutral 50 when
either tag set is empty). -/
def semanticFallback (m : Market) (p : UserProfile) : ℚ :=
  let marketTags := detectCategory ((m.title.getD "") ++ " " ++ (m.description.getD ""))
  let userTags := p.categories.dedup
  if userTags.isEmpty || marketTags.isEmpty then 50
  else
    let inter := interTags marketTags userTags
    let uni := unionTags marketTags userTags
    (if 0 < uni then (inter : ℚ) / (uni : ℚ) else 0) * 100

/-- _score_semantic: cosine on embeddings when the profile embedding is a
non-empty list and the analysis has an "embedding" key, otherwise the Jaccard
fallback. -/
noncomputable def scoreSemantic (m : Market) (p : UserProfile) (a : Option Analysis) : ℝ :=
  match p.interestEmbedding, Option.bind a Analysis.embedding with
  | some ue, some me =>
      if ue.isEmpty then ((semanticFallback m p : ℚ) : ℝ)
      else (cosineSimilarity ue me + 1) * 50
  | _, _ => ((semanticFallback m p : ℚ) : ℝ)

/-- The lower-cased category/title/description text of _score_category_match. -/
def marketTextCat (m : Market) : String :=
  lowerStr ((m.category.getD "") ++ " " ++ (m.title.getD "") ++ " " ++ (m.description.getD ""))

/-- One iteration of the category loop: a keyword hit counts one match and
accumulates the learnt weight of that category. -/
def catMatchStep (text : String) (cw : List (String × ℚ)) (acc : ℕ × ℚ) (userCat : String) :
    ℕ × ℚ :=
  let cl := lowerStr userCat
  let w := getWeight cw cl
  match alistFind genZCategories cl with
  | some kws => if kws.any (fun kw => strIn kw text) then (acc.1 + 1, acc.2 + w) else acc
  | none => acc

/-- _score_category_match. -/
def scoreCategoryMatch (m : Market) (p : UserProfile) : ℚ :=
  if p.categories.isEmpty then 50
  else
    let text := marketTextCat m
    let r := p.categories.foldl (catMatchStep text p.categoryWeights) (0, 0)
    if 0 < r.1 then
      let base := min 100 (((r.1 : ℚ) / (p.categories.length : ℚ)) * 100)
      let boost := min 100 ((r.2 / (p.categories.length : ℚ)) * 100)
      base * (1/2) + boost * (1/2)
    else 0

/-- The numeric risk bucket for an integer-style enrichment risk level. -/
def numRiskBucket (q : ℚ) : String :=
  if q ≤ 2 then "safe" else if q ≤ 3 then "medium" else "degen"

/-- The odds-spread heuristic signal (odds default to 0.5 each). -/
def oddsSignal (m : Market) : String :=
  let spread := |m.oddsYes.getD (1/2) - m.oddsNo.getD (1/2)|
  if 3/5 < spread then "safe" else if 3/10 < spread then "medium" else "degen"

/-- The volatility bucket signal, present only when the analysis carries a
volatility value. -/
def volatilitySignal (a : Option Analysis) : List String :=
  match Option.bind a Analysis.volatility with
  | some v => [if v < 1/5 then "safe" else if v < 1/2 then "medium" else "degen"]
  | none => []

/-- The liquidity tier signal (liquidity defaults to 0). -/
def liquiditySignal (m : Market) : String :=
  let liq := m.liquidity.getD 0
  if 100000 < liq then "safe" else if 10000 < liq then "medium" else "degen"

/-- The signal list built by _determine_market_risk after the string
early-return: numeric enrichment level, odds spread, volatility, liquidity. -/
def riskSignals (m : Market) (a : Option Analysis) : List String :=
  let s1 : List String :=
    match Option.bind a Analysis.riskLevel with
    | some (RiskValue.num q) => [numRiskBucket q]
    | _ => []
  s1 ++ [oddsSignal m] ++ volatilitySignal a ++ [liquiditySignal m]

/-- One signal of the defaultdict counting pass: bump an existing key or
append a fresh one (dict insertion order). -/
def voteStep (acc : List (String × ℕ)) (s : String) : List (String × ℕ) :=
  if acc.any (fun kv => kv.1 == s) then
    acc.map (fun kv => if kv.1 == s then (kv.1, kv.2 + 1) else kv)
  else acc ++ [(s, 1)]

/-- The defaultdict counting pass of the vote, in first-appearance order. -/
def voteCounts (signals : List String) : List (String × ℕ) :=
  signals.foldl voteStep []

/-- Python's `max(items, key=count)`: the first item attaining the maximal
count (strict improvements only). -/
def maxByCount : List (String × ℕ) → String
  | [] => "medium"
  | kv :: rest => (rest.foldl (fun best c => if best.2 < c.2 then c else best) kv).1

/-- _determine_market_risk: a string risk level returns immediately
(lower-cased); otherwise the collected signals are voted on. -/
def determineMarketRisk (m : Market) (a : Option Analysis) : String :=
  match Option.bind a Analysis.riskLevel with
  | some (RiskValue.str s) => lowerStr s
  | _ =>
      let signals := riskSignals m a
      if signals.isEmpty then "medium" else maxByCount (voteCounts signals)

/-- Position of a bucket on the safe < medium < degen scale (default medium). -/
def riskOrderIdx (s : String) : ℕ :=
  (alistFind [("safe", 0), ("medium", 1), ("degen", 2)] s).getD 1

/-- _score_risk_match: 100 / 60 / 20 by bucket distance. -/
def scoreRiskMatch (m : Market) (p : UserProfile) (a : Option Analysis) : ℚ :=
  let userIdx := riskOrderIdx (effectiveRiskTolerance p)
  let marketIdx := riskOrderIdx (determineMarketRisk m a)
  let distance := max (userIdx - marketIdx) (marketIdx - userIdx)
  if distance = 0 then 100 else if distance = 1 then 60 else 20

/-- The lower-cased title/description text used by trend and similarity. -/
def marketTextTD (m : Market) : String :=
  lowerStr ((m.title.getD "") ++ " " ++ (m.description.getD ""))

/-- _score_trend: additive momentum / traders / price-change / buzz / context
contributions, capped at 100. -/
def scoreTrend (m : Market) (a : Option Analysis) (ctx : Option (List (String × ℚ))) : ℚ :=
  let v24 := m.volume24h.getD 0
  let v7 := m.volume7d.getD 0
  let s1 : ℚ :=
    if 0 < v7 then
      (let momentum := v24 * 7 / v7
       if 3/2 < momentum then 30 else if 1 < momentum then 15 else 0)
    else 0
  let t := m.traders24h.getD 0
  let s2 : ℚ := if 100 < t then 20 else if 50 < t then 10 else 0
  let pc := |m.priceChange24h.getD 0|
  let s3 : ℚ := if 3/20 < pc then 20 else if 1/20 < pc then 10 else 0
  let s4 : ℚ :=
    match Option.bind a Analysis.socialBuzz with
    | some buzz => buzz * 15
    | none => 0
  let s5 : ℚ :=
    match ctx with
    | some tokens =>
        (match tokens.find? (fun tw => strIn (lowerStr tw.1) (marketTextTD m)) with
         | some tw => tw.2 * 15
         | none => 0)
    | none => 0
  min 100 (s1 + s2 + s3 + s4 + s5)

/-- _score_volume: 0 below the profile minimum, otherwise a 60/40 blend of the
volume and liquidity tier ladders. -/
def scoreVolume (m : Market) (p : UserProfile) : ℚ :=
  let volume := m.volume.getD 0
  let liquidity := m.liquidity.getD 0
  if volume < p.minVolume then 0
  else
    let volScore : ℚ :=
      if 1000000 ≤ volume then 100
      else if 500000 ≤ volume then 85
      else if 100000 ≤ volume then 70
      else if 50000 ≤ volume then 55
      else if 10000 ≤ volume then 40
      else 25
    let liqScore : ℚ :=
      if 500000 ≤ liquidity then 100
      else if 100000 ≤ liquidity then 80
      else if 50000 ≤ liquidity then 60
      else if 10000 ≤ liquidity then 40
      else 20
    volScore * (6/10) + liqScore * (4/10)

/-- _score_confidence (only called with an analysis present). -/
def scoreConfidence (a : Analysis) (p : UserProfile) : ℚ :=
  let confidence := a.confidence.getD (1/2)
  if confidence < p.minConfidence then 0 else confidence * 100

/-- _score_sentiment (only called with an analysis present); an unset or empty
preference is falsy and yields the neutral 50. -/
def scoreSentiment (a : Analysis) (p : UserProfile) : ℚ :=
  match p.sentimentPreference with
  | none => 50
  | some pref =>
      if pref = "" then 50
      else
        let ms := lowerStr (a.sentiment.getD "neutral")
        if lowerStr pref = ms then 100
        else if ms = "neutral" then 60
        else 30

/-- The per-signal breakdown attached to each scored market. -/
structure Breakdown : Type where
  semantic : ℝ
  category : ℚ
  risk : ℚ
  trend : ℚ
  volume : ℚ
  confidence : ℚ
  sentiment : ℚ

/-- The seven sub-scores computed by score_market (confidence and sentiment
default to 50 when no analysis is supplied). -/
noncomputable def mkBreakdown (m : Market) (p : UserProfile) (a : Option Analysis)
    (ctx : Option (List (String × ℚ))) : Breakdown :=
  { semantic := scoreSemantic m p a
    category := scoreCategoryMatch m p
    risk := scoreRiskMatch m p a
    trend := scoreTrend m a ctx
    volume := scoreVolume m p
    confidence := match a with | some an => scoreConfidence an p | none => 50
    sentiment := match a with | some an => scoreSentiment an p | none => 50 }

/-- The weighted total of score_market, clamped above at 100. -/
noncomputable def scoreMarketTotal (w : Weights) (bd : Breakdown) : ℝ :=
  min 100
    (bd.semantic * ((w.semantic : ℚ) : ℝ) +
     ((bd.category : ℚ) : ℝ) * ((w.category : ℚ) : ℝ) +
     ((bd.risk : ℚ) : ℝ) * ((w.risk : ℚ) : ℝ) +
     ((bd.trend : ℚ) : ℝ) * ((w.trend : ℚ) : ℝ) +
     ((bd.volume : ℚ) : ℝ) * ((w.volume : ℚ) : ℝ) +
     ((bd.confidence : ℚ) : ℝ) * ((w.confidence : ℚ) : ℝ) +
     ((bd.sentiment : ℚ) : ℝ) * ((w.sentiment : ℚ) : ℝ))

/-- score_market for an engine whose (already normalized) weight vector is w:
builds the profile from the legacy preferences when none is given and returns
the clamped weighted total together with the breakdown. -/
noncomputable def scoreMarket (w : Weights) (m : Market) (prefs : Prefs)
    (a : Option Analysis) (up : Option UserProfile)
    (ctx : Option (List (String × ℚ))) : ℝ × Breakdown :=
  let p := up.getD (buildProfileFromPrefs prefs)
  let bd := mkBreakdown m p a ctx
  (scoreMarketTotal w bd, bd)

/-- Python's round-half-even to two decimal places, on the exact value. -/
noncomputable def round2 (x : ℝ) : ℚ :=
  let y := x * 100
  let n : ℤ := if y - (⌊y⌋ : ℝ) = 1/2 then (if Even ⌊y⌋ then ⌊y⌋ else ⌊y⌋ + 1) else round y
  (n : ℚ) / 100

/-- A market dict augmented with recommendation_score and score_breakdown. -/
structure ScoredMarket : Type where
  market : Market
  recommendationScore : ℚ
  scoreBreakdown : Breakdown

/-- _market_similarity: category equality weighted 0.5 plus tag-Jaccard
weighted 0.5. -/
def marketSimilarity (a b : ScoredMarket) : ℚ :=
  let ca := lowerStr (a.market.category.getD "")
  let cb := lowerStr (b.market.category.getD "")
  let catMatch : ℚ := if ca = cb then 1 else 0
  let tagsA := detectCategory ((a.market.title.getD "") ++ " " ++ (a.market.description.getD ""))
  let tagsB := detectCategory ((b.market.title.getD "") ++ " " ++ (b.market.description.getD ""))
  let jaccard : ℚ :=
    if ¬ tagsA.isEmpty ∧ ¬ tagsB.isEmpty then
      (interTags tagsA tagsB : ℚ) / (unionTags tagsA tagsB : ℚ)
    else 0
  catMatch * (1/2) + jaccard * (1/2)

/-- The running maximum similarity of a candidate to the already selected
items (starting from 0.0). -/
def maxSimTo (selected : List ScoredMarket) (c : ScoredMarket) : ℚ :=
  selected.foldl (fun acc s => max acc (marketSimilarity c s)) 0

/-- The MMR objective of one candidate. -/
def mmrScore (lam : ℚ) (selected : List ScoredMarket) (c : ScoredMarket) : ℚ :=
  lam * (c.recommendationScore / 100) - (1 - lam) * maxSimTo selected c

/-- The source's argmax scan: strict improvements only, so the first maximum
wins; i is the index of the current head, bi/bv the best index and value. -/
def argmaxAux {α : Type} (f : α → ℚ) : List α → ℕ → ℕ → ℚ → ℕ
  | [], _, bi, _ => bi
  | c :: rest, i, bi, bv =>
      if bv < f c then argmaxAux f rest (i + 1) i (f c) else argmaxAux f rest (i + 1) bi bv

/-- Index of the first element attaining the maximal f-value (the loop seeds
best_mmr with -inf, so the head always replaces the initial value). -/
def argmaxIdx {α : Type} (f : α → ℚ) : List α → ℕ
  | [] => 0
  | c :: rest => argmaxAux f rest 1 0 (f c)

/-- The greedy selection loop of _apply_mmr: fuel counts the remaining picks
(the loop also stops when the pool is exhausted). -/
def mmrGo (lam : ℚ) : ℕ → List ScoredMarket → List ScoredMarket → List ScoredMarket
  | 0, _, _ => []
  | _ + 1, _, [] => []
  | fuel + 1, selected, c :: cs =>
      let rem := c :: cs
      let i := argmaxIdx (fun cand => mmrScore lam selected cand) rem
      let x := rem.getD i c
      x :: mmrGo lam fuel (selected ++ [x]) (rem.eraseIdx i)

/-- _apply_mmr: pools of at most k items are returned unchanged; otherwise the
top item seeds the selection and the greedy loop picks the remaining k-1. -/
def applyMMR (pool : List ScoredMarket) (k : ℕ) (lam : ℚ) : List ScoredMarket :=
  if pool.length ≤ k then pool
  else
    match pool with
    | [] => []
    | seed :: rest => seed :: mmrGo lam (k - 1) [seed] rest

/-- The scoring pass of rank_markets: one ScoredMarket per input market, with
the rounded total (the profile is built once from the preferences when
absent). -/
noncomputable def scoredList (w : Weights) (markets : List Market) (prefs : Prefs)
    (analyses : Option (List (String × Analysis))) (up : Option UserProfile)
    (ctx : Option (List (String × ℚ))) : List ScoredMarket :=
  let p := up.getD (buildProfileFromPrefs prefs)
  markets.map (fun m =>
    let a := Option.bind analyses (fun l => alistFind l m.id)
    let s := scoreMarket w m prefs a (some p) ctx
    { market := m, recommendationScore := round2 s.1, scoreBreakdown := s.2 })

/-- The stable descending sort of rank_markets (list.sort with reverse=True). -/
noncomputable def scoredSorted (w : Weights) (markets : List Market) (prefs : Prefs)
    (analyses : Option (List (String × Analysis))) (up : Option UserProfile)
    (ctx : Option (List (String × ℚ))) : List ScoredMarket :=
  (scoredList w markets prefs analyses up ctx).mergeSort
    (fun a b => decide (b.recommendationScore ≤ a.recommendationScore))

/-- rank_markets: score, sort descending, then either the MMR pass (only when
diversity_lambda < 1 and the pool strictly exceeds k) or a plain top-k cut. -/
noncomputable def rankMarkets (w : Weights) (markets : List Market) (prefs : Prefs)
    (analyses : Option (List (String × Analysis))) (up : Option UserProfile)
    (ctx : Option (List (String × ℚ))) (k : ℕ) (lam : ℚ) : List ScoredMarket :=
  let sorted := scoredSorted w markets prefs analyses up ctx
  if lam < 1 ∧ k < sorted.length then applyMMR sorted k lam else sorted.take k

/-- The profile invariant of the data model: risk_adjustment in [-1,1] and
every learnt category weight in [0,2]. -/
def ProfileInv (p : UserProfile) : Prop :=
  (-1 ≤ p.riskAdjustment ∧ p.riskAdjustment ≤ 1) ∧
    ∀ kv ∈ p.categoryWeights, 0 ≤ kv.2 ∧ kv.2 ≤ 2

/-- A pool already sorted descending by recommendation score. -/
def SortedByScoreDesc (pool : List ScoredMarket) : Prop :=
  List.Pairwise (fun a b => b.recommendationScore ≤ a.recommendationScore) pool

/-- The majority vote the specification describes for the risk bucket,
written from the spec's words: count every signal, then take the first signal
value (in insertion order) whose count is maximal. The explicit enrichment
risk level participates as a signal here (lower-cased when a string label,
bucketed when numeric) instead of short-circuiting. -/
def specRiskSignals (m : Market) (a : Option Analysis) : List String :=
  let s1 : List String :=
    match Option.bind a Analysis.riskLevel with
    | some (RiskValue.str s) => [lowerStr s]
    | some (RiskValue.num q) => [numRiskBucket q]
    | none => []
  s1 ++ [oddsSignal m] ++ volatilitySignal a ++ [liquiditySignal m]

/-- First-appearance deduplication (the key order of a Python dict built by
insertion). -/
def firstDedupAux (seen : List String) : List String → List String
  | [] => []
  | x :: xs =>
      if seen.contains x then firstDedupAux seen xs
      else x :: firstDedupAux (x :: seen) xs

/-- The distinct values of a list in first-appearance order. -/
def firstDedup (l : List String) : List String := firstDedupAux [] l

/-- Independent formulation of "majority vote with ties broken by insertion
order": scan the distinct signal values in first-appearance order and keep the
first one whose occurrence count is maximal. -/
def specVote (signals : List String) : String :=
  match firstDedup signals with
  | [] => "medium"
  | v :: vs =>
      (vs.foldl (fun best c =>
        if signals.count best < signals.count c then c else best) v)

/-- The risk bucket the specification's words prescribe. -/
def specMajorityRisk (m : Market) (a : Option Analysis) : String :=
  specVote (specRiskSignals m a)

/-- Bound statement for a full breakdown: every sub-score in [0,100]. -/
def BreakdownInBounds (bd : Breakdown) : Prop :=
  (0 ≤ bd.semantic ∧ bd.semantic ≤ 100) ∧
  (0 ≤ bd.category ∧ bd.category ≤ 100) ∧
  (0 ≤ bd.risk ∧ bd.risk ≤ 100) ∧
  (0 ≤ bd.trend ∧ bd.trend ≤ 100) ∧
  (0 ≤ bd.volume ∧ bd.volume ≤ 100) ∧
  (0 ≤ bd.confidence ∧ bd.confidence ≤ 100) ∧
  (0 ≤ bd.sentiment ∧ bd.sentiment ≤ 100)

/-- The all-zero weight vector. -/
def zeroWeights : Weights :=
  { semantic := 0, category := 0, risk := 0, trend := 0, volume := 0,
    confidence := 0, sentiment := 0 }

/-- The market of the specification's worked scenario. -/
def c4Market : Market :=
  { id := "btc-100k", title := some "Will Bitcoin hit $100K?",
    volume := some 250000, liquidity := some 150000 }

/-- The profile of the specification's worked scenario. -/
def c4Profile : UserProfile :=
  { userId := "scenario", categories := ["crypto"], riskTolerance := "medium",
    minVolume := 10000 }

/-- A market whose non-enrichment risk signals all vote "safe". -/
def c3Market : Market :=
  { id := "blowout", oddsYes := some 1, oddsNo := some 0, liquidity := some 200000 }

/-- An enrichment carrying a categorical (string) risk level. -/
def c3Analysis : Analysis := { riskLevel := some (RiskValue.str "degen") }

/-- A market whose text matches no "sports" keyword. -/
def c8Market : Market := { id := "plain", title := some "hello there" }

/-- A profile interested only in sports. -/
def c8Profile : UserProfile := { userId := "sporty", categories := ["sports"] }

/-- A neutral breakdown used to build concrete scored markets. -/
noncomputable def bd0 : Breakdown :=
  { semantic := 50, category := 50, risk := 50, trend := 50, volume := 50,
    confidence := 50, sentiment := 50 }

/-- A concrete scored market with score 80. -/
noncomputable def smA : ScoredMarket :=
  { market := { id := "a", category := some "Crypto" }, recommendationScore := 80,
    scoreBreakdown := bd0 }

/-- A concrete scored market with score 70. -/
noncomputable def smB : ScoredMarket :=
  { market := { id := "b", category := some "Sports" }, recommendationScore := 70,
    scoreBreakdown := bd0 }

/-- A concrete scored market with score 60. -/
noncomputable def smC : ScoredMarket :=
  { market := { id := "c", category := some "Politics" }, recommendationScore := 60,
    scoreBreakdown := bd0 }

/-- A plain market used in the rank_markets witnesses. -/
def mkt0 : Market := { id := "m0", title := some "hello there" }

/-- A second plain market used in the rank_markets witnesses. -/
def mkt1 : Market := { id := "m1", title := some "general update" }

/-- The profile used by the learning witness. -/
def c9Profile : UserProfile := { userId := "learner" }

/-- The event used by the learning witness. -/
def c9Event : UserHistoryEvent :=
  { marketId := "m0", action := "click", category := "crypto", riskLevel := "degen",
    timestamp := 0, engagementScore := 1 }

/-! ## Helper lemmas and claim theorems -/

theorem sumW_normalizeW_pos (w : Weights) (h : 0 < sumW w) : sumW (normalizeW w) = 1 := by
  have hne : sumW w ≠ 0 := ne_of_gt h
  simp only [normalizeW]
  rw [if_pos h]
  simp only [sumW]
  rw [div_add_div_same, div_add_div_same, div_add_div_same, div_add_div_same,
    div_add_div_same, div_add_div_same]
  exact div_self (by simpa [sumW] using hne)

theorem normalizeW_of_sum_one (v : Weights) (h : sumW v = 1) : normalizeW v = v := by
  simp [normalizeW, h]

/-- C2, counterexample: for the all-zero weight vector, normalize() leaves the
entries untouched (their sum stays 0); no 1/7 fallback exists in the code. -/
theorem c2_normalize_counterexample : sumW (normalizeW zeroWeights) ≠ 1 := by
  norm_num [normalizeW, sumW, zeroWeights]

/-- C2, amended: when the seven entries have positive total, normalize()
renormalizes proportionally so they sum to 1; when the total is not positive
(in particular for the all-zero vector) the vector is left unchanged, so no
division by zero ever happens; normalize() is idempotent in all cases. -/
theorem c2_normalize_amended :
    (∀ w : Weights, 0 < sumW w → sumW (normalizeW w) = 1) ∧
    (∀ w : Weights, sumW w ≤ 0 → normalizeW w = w) ∧
    (∀ w : Weights, normalizeW (normalizeW w) = normalizeW w) := by
  refine ⟨fun w h => sumW_normalizeW_pos w h,
    fun w h => by simp [normalizeW, not_lt.mpr h], fun w => ?_⟩
  by_cases h : 0 < sumW w
  · exact normalizeW_of_sum_one _ (sumW_normalizeW_pos w h)
  · have e : normalizeW w = w := by simp [normalizeW, h]
    rw [e]
    exact e

/-- Witness for C2 at the engine's default weight vector. -/
theorem c2_normalize_witness :
    0 < sumW ({ } : Weights) ∧ sumW (normalizeW ({ } : Weights)) = 1 :=
  ⟨by norm_num [sumW], c2_normalize_amended.1 ({ } : Weights) (by norm_num [sumW])⟩

theorem alistFind_mem_of_eq_some {α : Type} {l : List (String × α)} {k : String} {v : α}
    (h : alistFind l k = some v) : (k, v) ∈ l := by
  unfold alistFind at h
  cases hf : l.find? (fun kv => kv.1 == k) with
  | none => rw [hf] at h; simp at h
  | some kv =>
      rw [hf] at h
      have hk : kv.1 = k := by
        have := List.find?_some hf
        simpa using this
      have hv : kv.2 = v := by simpa using h
      have hm := List.mem_of_find?_eq_some hf
      have : (k, v) = kv := by
        cases kv
        simp_all
      rw [this]
      exact hm

theorem getWeight_bounds {l : List (String × ℚ)} {k : String}
    (hl : ∀ kv ∈ l, 0 ≤ kv.2 ∧ kv.2 ≤ 2) : 0 ≤ getWeight l k ∧ getWeight l k ≤ 2 := by
  unfold getWeight
  cases hf : alistFind l k with
  | none => norm_num
  | some v =>
      simp only [Option.getD_some]
      exact hl _ (alistFind_mem_of_eq_some hf)

theorem setWeight_mem {l : List (String × ℚ)} {k : String} {v : ℚ} {kv : String × ℚ}
    (h : kv ∈ setWeight l k v) : kv ∈ l ∨ kv = (k, v) := by
  unfold setWeight at h
  by_cases hc : l.any (fun kv => kv.1 == k)
  · rw [if_pos hc] at h
    obtain ⟨kv0, hkv0, he⟩ := List.mem_map.mp h
    by_cases h1 : kv0.1 == k
    · right
      rw [if_pos h1] at he
      exact he.symm
    · left
      rw [if_neg h1] at he
      exact he ▸ hkv0
  · rw [if_neg hc] at h
    rcases List.mem_append.mp h with h | h
    · exact Or.inl h
    · right
      simpa using h

theorem learn_step_inv {p : UserProfile} {e : UserHistoryEvent}
    (hp : ProfileInv p) (he : 0 ≤ e.engagementScore) :
    ProfileInv (learnFromInteraction p e) := by
  obtain ⟨⟨hr1, hr2⟩, hw⟩ := hp
  have hclampL : ∀ x : ℚ, -1 ≤ max (-1) (min 1 x) := fun x => le_max_left _ _
  have hclampR : ∀ x : ℚ, max (-1) (min 1 x) ≤ 1 :=
    fun x => max_le (by norm_num) (min_le_left _ _)
  have hnewW : ∀ kv ∈ setWeight p.categoryWeights e.category
      (min 2 (getWeight p.categoryWeights e.category + (1/10) * e.engagementScore)),
      0 ≤ kv.2 ∧ kv.2 ≤ 2 := by
    intro kv hkv
    rcases setWeight_mem hkv with hold | hnew
    · exact hw _ hold
    · rw [hnew]
      have hcur := getWeight_bounds (k := e.category) hw
      constructor
      · exact le_min (by norm_num)
          (add_nonneg hcur.1 (mul_nonneg (by norm_num) he))
      · exact min_le_left _ _
  unfold learnFromInteraction
  cases hm : alistFind [("safe", (-(1:ℚ)/2)), ("medium", 0), ("degen", 1/2)] e.riskLevel with
  | some rv =>
      by_cases hc : e.category ≠ ""
      · simp only [if_pos hc]
        exact ⟨⟨hclampL _, hclampR _⟩, fun kv hkv => hnewW kv hkv⟩
      · simp only [if_neg hc]
        exact ⟨⟨hclampL _, hclampR _⟩, fun kv hkv => hw kv hkv⟩
  | none =>
      by_cases hc : e.category ≠ ""
      · simp only [if_pos hc]
        exact ⟨⟨hr1, hr2⟩, fun kv hkv => hnewW kv hkv⟩
      · simp only [if_neg hc]
        exact ⟨⟨hr1, hr2⟩, fun kv hkv => hw kv hkv⟩

theorem learn_foldl_inv (events : List UserHistoryEvent) :
    ∀ p : UserProfile, ProfileInv p → (∀ e ∈ events, 0 ≤ e.engagementScore) →
      ProfileInv (List.foldl learnFromInteraction p events) := by
  induction events with
  | nil => intro p hp _; exact hp
  | cons e es ih =>
      intro p hp hall
      rw [List.foldl_cons]
      exact ih _ (learn_step_inv hp (hall e (by simp)))
        (fun x hx => hall x (List.mem_cons_of_mem _ hx))

/-- C9: for every event sequence with non-negative engagement scores applied
to a profile satisfying the bounds, the invariant (risk_adjustment in [-1,1],
every category weight in [0,2]) holds after every prefix of the sequence. -/
theorem c9_learning_invariant :
    ∀ (p : UserProfile) (events : List UserHistoryEvent),
      ProfileInv p → (∀ e ∈ events, 0 ≤ e.engagementScore) →
      ∀ n : ℕ, ProfileInv (List.foldl learnFromInteraction p (events.take n)) :=
  fun p events hp hall n =>
    learn_foldl_inv (events.take n) p hp (fun e he => hall e (List.take_subset n events he))

/-- Witness for C9 on a fresh profile and a single full-engagement event. -/
theorem c9_learning_witness :
    ProfileInv c9Profile ∧ (∀ e ∈ [c9Event], 0 ≤ e.engagementScore) ∧
      ProfileInv (List.foldl learnFromInteraction c9Profile ([c9Event].take 1)) := by
  have h1 : ProfileInv c9Profile := by
    constructor
    · constructor <;> norm_num [c9Profile]
    · intro kv hkv
      simp [c9Profile] at hkv
  have h2 : ∀ e ∈ [c9Event], 0 ≤ e.engagementScore := by
    intro e he
    rw [List.mem_singleton] at he
    subst he
    norm_num [c9Event]
  exact ⟨h1, h2, c9_learning_invariant c9Profile [c9Event] h1 h2 1⟩

theorem dotQ_cons (x y : ℚ) (a b : List ℚ) : dotQ (x :: a) (y :: b) = x * y + dotQ a b := by
  simp [dotQ]

theorem dotQ_comm (a b : List ℚ) : dotQ a b = dotQ b a := by
  unfold dotQ
  rw [List.zipWith_comm_of_comm _ mul_comm]

theorem dotQ_self_nonneg (a : List ℚ) : 0 ≤ dotQ a a := by
  induction a with
  | nil => simp [dotQ]
  | cons x xs ih =>
      rw [dotQ_cons]
      exact add_nonneg (mul_self_nonneg x) ih

theorem dotQ_self_pos {a : List ℚ} {x : ℚ} (h : x ∈ a) (hx : x ≠ 0) : 0 < dotQ a a := by
  induction a with
  | nil => cases h
  | cons y ys ih =>
      rw [dotQ_cons]
      rcases List.mem_cons.mp h with rfl | hmem
      · exact add_pos_of_pos_of_nonneg (mul_self_pos.mpr hx) (dotQ_self_nonneg ys)
      · exact add_pos_of_nonneg_of_pos (mul_self_nonneg y) (ih hmem)

theorem dotQ_sq_le (a : List ℚ) : ∀ b : List ℚ, (dotQ a b) ^ 2 ≤ dotQ a a * dotQ b b := by
  induction a with
  | nil =>
      intro b
      simp [dotQ]
  | cons x xs ih =>
      intro b
      cases b with
      | nil => simp [dotQ]
      | cons y ys =>
          rw [dotQ_cons, dotQ_cons, dotQ_cons]
          have ihb := ih ys
          have hA := dotQ_self_nonneg xs
          have hB := dotQ_self_nonneg ys
          rcases eq_or_lt_of_le hA with h0 | hpos
          · have hD : dotQ xs ys = 0 := by nlinarith [sq_nonneg (dotQ xs ys)]
            rw [hD]
            nlinarith [mul_nonneg (mul_self_nonneg x) hB, sq_nonneg (x * y)]
          · nlinarith [sq_nonneg (x * dotQ xs ys - dotQ xs xs * y),
              mul_nonneg (mul_self_nonneg x) (sub_nonneg.mpr ihb),
              mul_nonneg hpos.le (sub_nonneg.mpr ihb), mul_pos hpos hpos]

theorem normR_nonneg (a : List ℚ) : 0 ≤ normR a := Real.sqrt_nonneg _

theorem normR_eq_zero_iff (a : List ℚ) : normR a = 0 ↔ dotQ a a = 0 := by
  unfold normR
  rw [Real.sqrt_eq_zero']
  constructor
  · intro h
    have h2 : dotQ a a ≤ 0 := by exact_mod_cast h
    exact le_antisymm h2 (dotQ_self_nonneg a)
  · intro h
    rw [h]
    simp

theorem cosineSimilarity_abs_le (a b : List ℚ) : |cosineSimilarity a b| ≤ 1 := by
  unfold cosineSimilarity
  split_ifs with h1 h2
  · simp
  · simp
  · push_neg at h2
    have ha : 0 < normR a := lt_of_le_of_ne (normR_nonneg a) (Ne.symm h2.1)
    have hb : 0 < normR b := lt_of_le_of_ne (normR_nonneg b) (Ne.symm h2.2)
    have key : ((dotQ a b : ℚ) : ℝ) ^ 2 ≤ ((dotQ a a : ℚ) : ℝ) * ((dotQ b b : ℚ) : ℝ) := by
      exact_mod_cast dotQ_sq_le a b
    have habs : |((dotQ a b : ℚ) : ℝ)| ≤ normR a * normR b := by
      calc |((dotQ a b : ℚ) : ℝ)| = Real.sqrt (((dotQ a b : ℚ) : ℝ) ^ 2) :=
            (Real.sqrt_sq_eq_abs _).symm
        _ ≤ Real.sqrt (((dotQ a a : ℚ) : ℝ) * ((dotQ b b : ℚ) : ℝ)) := Real.sqrt_le_sqrt key
        _ = normR a * normR b := by
            rw [Real.sqrt_mul (by exact_mod_cast dotQ_self_nonneg a)]
            rfl
    rw [abs_div, abs_of_pos (mul_pos ha hb)]
    rw [div_le_one (mul_pos ha hb)]
    exact habs

theorem cosineSimilarity_symm (a b : List ℚ) : cosineSimilarity a b = cosineSimilarity b a := by
  unfold cosineSimilarity
  by_cases h : a.length = b.length
  · rw [if_neg (by simp [h] : ¬ a.length ≠ b.length)]
    rw [if_neg (by simp [h] : ¬ b.length ≠ a.length)]
    by_cases h2 : normR a = 0 ∨ normR b = 0
    · rw [if_pos h2, if_pos (Or.symm h2)]
    · rw [if_neg h2, if_neg (fun hc => h2 (Or.symm hc))]
      rw [dotQ_comm, mul_comm]
  · rw [if_pos h, if_pos (fun hc => h (hc.symm))]

theorem cosineSimilarity_self {a : List ℚ} (h : ∃ x ∈ a, x ≠ 0) :
    cosineSimilarity a a = 1 := by
  obtain ⟨x, hx, hxne⟩ := h
  have hpos : 0 < dotQ a a := dotQ_self_pos hx hxne
  have hn : normR a ≠ 0 := fun h0 => ne_of_gt hpos ((normR_eq_zero_iff a).mp h0)
  unfold cosineSimilarity
  rw [if_neg (by simp : ¬ a.length ≠ a.length)]
  rw [if_neg (by simp [hn] : ¬ (normR a = 0 ∨ normR a = 0))]
  have hmul : normR a * normR a = ((dotQ a a : ℚ) : ℝ) :=
    Real.mul_self_sqrt (by exact_mod_cast dotQ_self_nonneg a)
  rw [hmul]
  exact div_self (by exact_mod_cast ne_of_gt hpos)

/-- C7: cosine similarity is symmetric; cosine(a,a)=1 for non-zero a; cosine
returns exactly 0 on mismatched lengths or a zero norm; and the value always
lies in [-1,1]. -/
theorem c7_cosine_properties :
    (∀ a b : List ℚ, cosineSimilarity a b = cosineSimilarity b a) ∧
    (∀ a : List ℚ, (∃ x ∈ a, x ≠ 0) → cosineSimilarity a a = 1) ∧
    (∀ a b : List ℚ, a.length ≠ b.length → cosineSimilarity a b = 0) ∧
    (∀ a b : List ℚ, normR a = 0 ∨ normR b = 0 → cosineSimilarity a b = 0) ∧
    (∀ a b : List ℚ, -1 ≤ cosineSimilarity a b ∧ cosineSimilarity a b ≤ 1) := by
  refine ⟨cosineSimilarity_symm, fun a h => cosineSimilarity_self h, ?_, ?_, ?_⟩
  · intro a b h
    unfold cosineSimilarity
    rw [if_pos h]
  · intro a b h
    unfold cosineSimilarity
    by_cases hl : a.length ≠ b.length
    · rw [if_pos hl]
    · rw [if_neg hl, if_pos h]
  · intro a b
    exact abs_le.mp (cosineSimilarity_abs_le a b)

/-- Witness for C7: the one-dimensional vector [1] has cosine 1 with itself,
and a genuine length mismatch yields exactly 0. -/
theorem c7_cosine_witness :
    ((∃ x ∈ [(1:ℚ)], x ≠ 0) ∧ cosineSimilarity [1] [1] = 1) ∧
    (([(1:ℚ)].length ≠ ([] : List ℚ).length) ∧ cosineSimilarity [1] [] = 0) :=
  ⟨⟨⟨1, by simp, one_ne_zero⟩, c7_cosine_properties.2.1 [1] ⟨1, by simp, one_ne_zero⟩⟩,
   ⟨by simp, c7_cosine_properties.2.2.1 [1] [] (by simp)⟩⟩

theorem catMatch_foldl_no_hit (text : String) (cw : List (String × ℚ)) :
    ∀ (cats : List String) (acc : ℕ × ℚ),
      (∀ c ∈ cats, ∀ kw ∈ (alistFind genZCategories (lowerStr c)).getD [],
        strIn kw text = false) →
      List.foldl (catMatchStep text cw) acc cats = acc := by
  intro cats
  induction cats with
  | nil => intro acc _; rfl
  | cons c cs ih =>
      intro acc hall
      rw [List.foldl_cons]
      have hstep : catMatchStep text cw acc c = acc := by
        simp only [catMatchStep]
        cases hf : alistFind genZCategories (lowerStr c) with
        | none => simp [hf]
        | some kws =>
            have hkw : ∀ kw ∈ kws, strIn kw text = false := by
              intro kw hkwm
              have hc := hall c (by simp) kw
              rw [hf] at hc
              exact hc (by simpa using hkwm)
            show (if (kws.any fun kw => strIn kw text) = true then
                (acc.1 + 1, acc.2 + getWeight cw (lowerStr c)) else acc) = acc
            split
            · rename_i hcond
              exfalso
              have hex : ∃ x ∈ kws, strIn x text = true := by simpa using hcond
              obtain ⟨x, hx, hs⟩ := hex
              rw [hkw x hx] at hs
              cases hs
            · rfl
      rw [hstep]
      exact ih acc (fun x hx kw hkw => hall x (List.mem_cons_of_mem _ hx) kw hkw)

/-- C8: the category scorer returns the neutral 50 exactly when the profile
has no categories, and exactly 0 when the profile has categories but none of
their keywords occurs in the lower-cased category/title/description text. -/
theorem c8_category_scorer :
    (∀ (m : Market) (p : UserProfile), p.categories = [] → scoreCategoryMatch m p = 50) ∧
    (∀ (m : Market) (p : UserProfile), p.categories ≠ [] →
      (∀ c ∈ p.categories, ∀ kw ∈ (alistFind genZCategories (lowerStr c)).getD [],
        strIn kw (marketTextCat m) = false) →
      scoreCategoryMatch m p = 0) := by
  constructor
  · intro m p h
    simp [scoreCategoryMatch, h]
  · intro m p h hall
    simp only [scoreCategoryMatch]
    rw [if_neg (by simp [h])]
    rw [catMatch_foldl_no_hit (marketTextCat m) p.categoryWeights p.categories (0, 0) hall]
    norm_num

/-- Witness for C8: an empty-category profile gets 50; a sports-only profile
against a market with no sports keywords gets 0. -/
theorem c8_category_witness :
    (({ userId := "empty" } : UserProfile).categories = [] ∧
      scoreCategoryMatch c8Market { userId := "empty" } = 50) ∧
    (c8Profile.categories ≠ [] ∧
      (∀ c ∈ c8Profile.categories, ∀ kw ∈ (alistFind genZCategories (lowerStr c)).getD [],
        strIn kw (marketTextCat c8Market) = false) ∧
      scoreCategoryMatch c8Market c8Profile = 0) :=
  ⟨⟨rfl, c8_category_scorer.1 c8Market { userId := "empty" } rfl⟩,
   ⟨by simp [c8Profile], by decide,
    c8_category_scorer.2 c8Market c8Profile (by simp [c8Profile]) (by decide)⟩⟩

theorem scoreVolume_c4 : scoreVolume c4Market c4Profile = 74 := by
  norm_num [scoreVolume, c4Market, c4Profile]

theorem effectiveRisk_c4 : effectiveRiskTolerance c4Profile = "medium" := by
  have hfind : alistFind [("safe", (-(1:ℚ)/2)), ("medium", 0), ("degen", 1/2)] "medium"
      = some 0 := rfl
  simp only [effectiveRiskTolerance, c4Profile]
  simp only [hfind, Option.getD_some]
  norm_num


theorem determineRisk_c4 : determineMarketRisk c4Market none = "degen" := by
  have hodds : oddsSignal c4Market = "degen" := by
    norm_num [oddsSignal, c4Market]
  have hliq : liquiditySignal c4Market = "safe" := by
    norm_num [liquiditySignal, c4Market]
  have hsig : riskSignals c4Market none = ["degen", "safe"] := by
    simp [riskSignals, hodds, hliq, volatilitySignal]
  simp only [determineMarketRisk, Option.none_bind]
  rw [hsig]
  decide

theorem scoreRiskMatch_c4 : scoreRiskMatch c4Market c4Profile none = 60 := by
  simp only [scoreRiskMatch, effectiveRisk_c4, determineRisk_c4]
  decide

theorem scoreCategoryMatch_c4 : scoreCategoryMatch c4Market c4Profile = 100 := by
  have hfold : List.foldl (catMatchStep (marketTextCat c4Market) c4Profile.categoryWeights)
      (0, 0) c4Profile.categories = (1, (0 : ℚ) + 1) := rfl
  simp only [scoreCategoryMatch, c4Profile]
  rw [if_neg (by decide)]
  have hfold2 : List.foldl (catMatchStep (marketTextCat c4Market) (List.nil : List (String × ℚ)))
      (0, 0) ["crypto"] = (1, (0 : ℚ) + 1) := hfold
  rw [hfold2]
  norm_num

/-- C4, counterexample: in the worked scenario the volume score is not 70.0 —
the scorer blends the volume tier (70) with the liquidity tier (80) as
70*0.6 + 80*0.4 = 74.0. -/
theorem c4_scenario_counterexample : scoreVolume c4Market c4Profile ≠ 70 := by
  rw [scoreVolume_c4]
  norm_num

/-- C4, amended: in the scenario the category score is strictly positive (it
evaluates to 100), the volume score is exactly 74.0 (60% volume tier 70 plus
40% liquidity tier 80), and the risk score is exactly 60.0. -/
theorem c4_scenario_amended :
    0 < scoreCategoryMatch c4Market c4Profile ∧
    scoreVolume c4Market c4Profile = 74 ∧
    scoreRiskMatch c4Market c4Profile none = 60 :=
  ⟨by rw [scoreCategoryMatch_c4]; norm_num, scoreVolume_c4, scoreRiskMatch_c4⟩

theorem contains_iff {l : List String} {a : String} : l.contains a = true ↔ a ∈ l :=
  List.elem_iff

theorem firstDedupAux_append_single :
    ∀ (l seen : List String) (s : String),
      firstDedupAux seen (l ++ [s]) =
        if s ∈ seen ∨ s ∈ l then firstDedupAux seen l
        else firstDedupAux seen l ++ [s] := by
  intro l
  induction l with
  | nil =>
      intro seen s
      simp only [List.nil_append, firstDedupAux]
      by_cases h : s ∈ seen
      · rw [if_pos (contains_iff.mpr h), if_pos (Or.inl h)]
      · rw [if_neg (fun hc => h (contains_iff.mp hc)), if_neg (by simp [h])]
  | cons a as ih =>
      intro seen s
      simp only [List.cons_append, firstDedupAux, List.append_eq]
      by_cases ha : a ∈ seen
      · rw [if_pos (contains_iff.mpr ha), if_pos (contains_iff.mpr ha), ih]
        have hiff : (s ∈ seen ∨ s ∈ as) ↔ (s ∈ seen ∨ s ∈ a :: as) := by
          constructor
          · rintro (h | h)
            · exact Or.inl h
            · exact Or.inr (List.mem_cons_of_mem _ h)
          · rintro (h | h)
            · exact Or.inl h
            · rcases List.mem_cons.mp h with rfl | h2
              · exact Or.inl ha
              · exact Or.inr h2
        exact if_congr hiff rfl rfl
      · rw [if_neg (fun hc => ha (contains_iff.mp hc)),
          if_neg (fun hc => ha (contains_iff.mp hc)), ih]
        have hiff : (s ∈ a :: seen ∨ s ∈ as) ↔ (s ∈ seen ∨ s ∈ a :: as) := by
          constructor
          · rintro (h | h)
            · rcases List.mem_cons.mp h with rfl | h2
              · exact Or.inr (List.mem_cons_self _ _)
              · exact Or.inl h2
            · exact Or.inr (List.mem_cons_of_mem _ h)
          · rintro (h | h)
            · exact Or.inl (List.mem_cons_of_mem _ h)
            · rcases List.mem_cons.mp h with rfl | h2
              · exact Or.inl (List.mem_cons_self _ _)
              · exact Or.inr h2
        rw [apply_ite (List.cons a)]
        exact if_congr hiff rfl rfl

theorem firstDedup_append_mem {pre : List String} {s : String} (h : s ∈ pre) :
    firstDedup (pre ++ [s]) = firstDedup pre := by
  unfold firstDedup
  rw [firstDedupAux_append_single, if_pos (by simp [h])]

theorem firstDedup_append_not_mem {pre : List String} {s : String} (h : s ∉ pre) :
    firstDedup (pre ++ [s]) = firstDedup pre ++ [s] := by
  unfold firstDedup
  rw [firstDedupAux_append_single, if_neg (by simp [h])]

theorem mem_firstDedupAux :
    ∀ (l seen : List String) (x : String), x ∈ firstDedupAux seen l ↔ x ∈ l ∧ x ∉ seen := by
  intro l
  induction l with
  | nil => intro seen x; simp [firstDedupAux]
  | cons a as ih =>
      intro seen x
      simp only [firstDedupAux]
      by_cases ha : a ∈ seen
      · rw [if_pos (contains_iff.mpr ha), ih]
        constructor
        · rintro ⟨h1, h2⟩
          exact ⟨List.mem_cons_of_mem _ h1, h2⟩
        · rintro ⟨h1, h2⟩
          rcases List.mem_cons.mp h1 with rfl | h3
          · exact absurd ha h2
          · exact ⟨h3, h2⟩
      · rw [if_neg (fun hc => ha (contains_iff.mp hc))]
        rw [List.mem_cons, ih]
        constructor
        · rintro (rfl | ⟨h1, h2⟩)
          · exact ⟨List.mem_cons_self _ _, ha⟩
          · refine ⟨List.mem_cons_of_mem _ h1, fun hx => h2 (List.mem_cons_of_mem _ hx)⟩
        · rintro ⟨h1, h2⟩
          rcases List.mem_cons.mp h1 with rfl | h3
          · exact Or.inl rfl
          · by_cases hxa : x = a
            · exact Or.inl hxa
            · exact Or.inr ⟨h3, fun hx => (by
                rcases List.mem_cons.mp hx with h | h
                · exact hxa h
                · exact h2 h)⟩

theorem mem_firstDedup {l : List String} {x : String} : x ∈ firstDedup l ↔ x ∈ l := by
  unfold firstDedup
  rw [mem_firstDedupAux]
  simp

theorem voteCounts_go :
    ∀ (rest pre : List String),
      List.foldl voteStep ((firstDedup pre).map (fun s => (s, pre.count s))) rest =
        (firstDedup (pre ++ rest)).map (fun s => (s, (pre ++ rest).count s)) := by
  intro rest
  induction rest with
  | nil => intro pre; simp
  | cons s rs ih =>
      intro pre
      rw [List.foldl_cons]
      have hstep : voteStep ((firstDedup pre).map (fun t => (t, pre.count t))) s =
          (firstDedup (pre ++ [s])).map (fun t => (t, (pre ++ [s]).count t)) := by
        unfold voteStep
        have hany : ((firstDedup pre).map (fun t => (t, pre.count t))).any
            (fun kv => kv.1 == s) = true ↔ s ∈ pre := by
          rw [List.any_eq_true]
          constructor
          · rintro ⟨kv, hkv, hbeq⟩
            obtain ⟨t, ht, rfl⟩ := List.mem_map.mp hkv
            have : t = s := by simpa using hbeq
            exact this ▸ mem_firstDedup.mp ht
          · intro hs
            exact ⟨(s, pre.count s), List.mem_map.mpr ⟨s, mem_firstDedup.mpr hs, rfl⟩, by simp⟩
        by_cases hs : s ∈ pre
        · rw [if_pos (hany.mpr hs), firstDedup_append_mem hs]
          rw [List.map_map]
          apply List.map_congr_left
          intro t ht
          simp only [Function.comp]
          by_cases hts : t = s
          · subst hts
            rw [if_pos (by simp)]
            simp [List.count_append]
          · rw [if_neg (by simpa using hts)]
            have hcnt : List.count t [s] = 0 :=
              List.count_eq_zero_of_not_mem (by simpa using hts)
            simp [List.count_append, hcnt]
        · rw [if_neg (fun hc => hs (hany.mp hc)), firstDedup_append_not_mem hs]
          rw [List.map_append]
          congr 1
          · apply List.map_congr_left
            intro t ht
            have htpre : t ∈ pre := mem_firstDedup.mp ht
            have hts : t ≠ s := fun h => hs (h ▸ htpre)
            have hcnt : List.count t [s] = 0 :=
              List.count_eq_zero_of_not_mem (by simpa using hts)
            simp [List.count_append, hcnt]
          · have hcnt : List.count s pre = 0 := List.count_eq_zero_of_not_mem hs
            simp [List.count_append, hcnt]
      rw [hstep, ih, List.append_assoc]
      rfl

theorem voteCounts_eq (l : List String) :
    voteCounts l = (firstDedup l).map (fun s => (s, l.count s)) := by
  have := voteCounts_go l []
  simpa [voteCounts, firstDedup, firstDedupAux] using this

theorem foldl_max_map (cnt : String → ℕ) :
    ∀ (vs : List String) (v : String),
      (List.foldl (fun best c => if best.2 < c.2 then c else best) (v, cnt v)
          (vs.map (fun s => (s, cnt s)))).1 =
        List.foldl (fun best c => if cnt best < cnt c then c else best) v vs := by
  intro vs
  induction vs with
  | nil => intro v; rfl
  | cons c cs ih =>
      intro v
      rw [List.map_cons, List.foldl_cons, List.foldl_cons]
      have hstep : (if (v, cnt v).2 < (c, cnt c).2 then (c, cnt c) else (v, cnt v)) =
          ((if cnt v < cnt c then c else v), cnt (if cnt v < cnt c then c else v)) := by
        by_cases h : cnt v < cnt c
        · simp [h]
        · simp [h]
      rw [hstep]
      exact ih _

theorem firstDedup_cons (x : String) (xs : List String) :
    firstDedup (x :: xs) = x :: firstDedupAux [x] xs := rfl

theorem vote_eq (l : List String) (h : l ≠ []) :
    maxByCount (voteCounts l) = specVote l := by
  rw [voteCounts_eq]
  cases hl : firstDedup l with
  | nil =>
      exfalso
      cases l with
      | nil => exact h rfl
      | cons x xs => rw [firstDedup_cons] at hl; cases hl
  | cons v vs =>
      unfold specVote
      rw [hl]
      rw [List.map_cons]
      unfold maxByCount
      exact foldl_max_map (fun s => l.count s) vs v

theorem riskSignals_ne_nil (m : Market) (a : Option Analysis) : riskSignals m a ≠ [] := by
  intro h
  have hlen := congrArg List.length h
  simp [riskSignals] at hlen

theorem specRiskSignals_eq_riskSignals (m : Market) (a : Option Analysis)
    (h : ∀ s, Option.bind a Analysis.riskLevel ≠ some (RiskValue.str s)) :
    specRiskSignals m a = riskSignals m a := by
  unfold specRiskSignals riskSignals
  cases hrl : Option.bind a Analysis.riskLevel with
  | none => rfl
  | some rv =>
      cases rv with
      | str s => exact absurd hrl (h s)
      | num q => rfl

/-- C3, counterexample: with a categorical enrichment risk level "degen" on a
market whose odds-spread and liquidity signals both vote "safe", the code
returns "degen" (the string short-circuits) while the specified majority vote
returns "safe". -/
theorem c3_risk_counterexample :
    determineMarketRisk c3Market (some c3Analysis) ≠ specMajorityRisk c3Market (some c3Analysis) := by
  have hcode : determineMarketRisk c3Market (some c3Analysis) = "degen" := by decide
  have hodds : oddsSignal c3Market = "safe" := by
    norm_num [oddsSignal, c3Market]
  have hliq : liquiditySignal c3Market = "safe" := by
    norm_num [liquiditySignal, c3Market]
  have hlow : lowerStr "degen" = "degen" := by decide
  have hsig : specRiskSignals c3Market (some c3Analysis) = ["degen", "safe", "safe"] := by
    simp [specRiskSignals, c3Analysis, hodds, hliq, volatilitySignal, hlow]
  have hspec : specMajorityRisk c3Market (some c3Analysis) = "safe" := by
    simp only [specMajorityRisk]
    rw [hsig]
    decide
  rw [hcode, hspec]
  decide

/-- C3, amended: a categorical (string) enrichment risk level decides the
bucket alone (lower-cased, short-circuiting every other signal); in every
other case (numeric or absent risk level) the bucket is the majority vote over
the collected signals with ties broken by the signals' insertion order,
exactly as the specification describes. -/
theorem c3_risk_vote_amended :
    (∀ (m : Market) (a : Analysis) (s : String), a.riskLevel = some (RiskValue.str s) →
        determineMarketRisk m (some a) = lowerStr s) ∧
    (∀ (m : Market) (a : Option Analysis),
        (∀ s : String, Option.bind a Analysis.riskLevel ≠ some (RiskValue.str s)) →
        determineMarketRisk m a = specMajorityRisk m a) := by
  constructor
  · intro m a s h
    simp [determineMarketRisk, h]
  · intro m a h
    have hspec := specRiskSignals_eq_riskSignals m a h
    simp only [specMajorityRisk, hspec]
    rw [← vote_eq _ (riskSignals_ne_nil m a)]
    cases hrl : Option.bind a Analysis.riskLevel with
    | none =>
        simp only [determineMarketRisk, hrl]
        rw [if_neg (by simp [List.isEmpty_iff, riskSignals_ne_nil m a])]
    | some rv =>
        cases rv with
        | str s => exact absurd hrl (h s)
        | num q =>
            simp only [determineMarketRisk, hrl]
            rw [if_neg (by simp [List.isEmpty_iff, riskSignals_ne_nil m a])]

/-- Witness for C3: a string level "Safe" decides alone (lower-cased), and an
absent enrichment falls back to the described majority vote. -/
theorem c3_risk_vote_witness :
    (({ riskLevel := some (RiskValue.str "Safe") } : Analysis).riskLevel
        = some (RiskValue.str "Safe") ∧
      determineMarketRisk mkt0 (some { riskLevel := some (RiskValue.str "Safe") })
        = lowerStr "Safe") ∧
    ((∀ s : String, Option.bind (none : Option Analysis) Analysis.riskLevel
        ≠ some (RiskValue.str s)) ∧
      determineMarketRisk mkt1 none = specMajorityRisk mkt1 none) :=
  ⟨⟨rfl, c3_risk_vote_amended.1 mkt0 { riskLevel := some (RiskValue.str "Safe") } "Safe" rfl⟩,
   ⟨fun s => by simp, c3_risk_vote_amended.2 mkt1 none (fun s => by simp)⟩⟩

theorem argmaxAux_lt {α : Type} (f : α → ℚ) :
    ∀ (l : List α) (i bi : ℕ) (bv : ℚ), bi < i →
      argmaxAux f l i bi bv < i + l.length := by
  intro l
  induction l with
  | nil =>
      intro i bi bv h
      simpa [argmaxAux] using h
  | cons c cs ih =>
      intro i bi bv h
      simp only [argmaxAux]
      by_cases hc : bv < f c
      · rw [if_pos hc]
        have := ih (i + 1) i (f c) (Nat.lt_succ_self i)
        simpa [Nat.add_assoc, Nat.add_comm, Nat.add_left_comm] using this
      · rw [if_neg hc]
        have := ih (i + 1) bi bv (Nat.lt_succ_of_lt h)
        simpa [Nat.add_assoc, Nat.add_comm, Nat.add_left_comm] using this

theorem argmaxIdx_lt {α : Type} (f : α → ℚ) (c : α) (cs : List α) :
    argmaxIdx f (c :: cs) < (c :: cs).length := by
  simp only [argmaxIdx, List.length_cons]
  have := argmaxAux_lt f cs 1 0 (f c) Nat.one_pos
  omega

theorem argmaxAux_of_le {α : Type} (f : α → ℚ) :
    ∀ (l : List α) (i bi : ℕ) (bv : ℚ), (∀ x ∈ l, f x ≤ bv) →
      argmaxAux f l i bi bv = bi := by
  intro l
  induction l with
  | nil => intro i bi bv _; rfl
  | cons c cs ih =>
      intro i bi bv h
      simp only [argmaxAux]
      rw [if_neg (not_lt.mpr (h c (List.mem_cons_self _ _)))]
      exact ih (i + 1) bi bv (fun x hx => h x (List.mem_cons_of_mem _ hx))

theorem argmaxIdx_sorted_zero {α : Type} (f : α → ℚ) (c : α) (cs : List α)
    (h : ∀ x ∈ cs, f x ≤ f c) : argmaxIdx f (c :: cs) = 0 := by
  simp only [argmaxIdx]
  exact argmaxAux_of_le f cs 1 0 (f c) h

theorem mmrScore_one (selected : List ScoredMarket) (c : ScoredMarket) :
    mmrScore 1 selected c = c.recommendationScore / 100 := by
  simp [mmrScore]

theorem mmrGo_one_sorted :
    ∀ (fuel : ℕ) (sel rem : List ScoredMarket), SortedByScoreDesc rem →
      mmrGo 1 fuel sel rem = rem.take fuel := by
  intro fuel
  induction fuel with
  | zero => intro sel rem _; rfl
  | succ n ih =>
      intro sel rem hsorted
      cases rem with
      | nil => rfl
      | cons c cs =>
          simp only [mmrGo]
          have hidx : argmaxIdx (fun cand => mmrScore 1 sel cand) (c :: cs) = 0 := by
            apply argmaxIdx_sorted_zero
            intro x hx
            rw [mmrScore_one, mmrScore_one]
            have := List.rel_of_pairwise_cons hsorted hx
            linarith
          rw [hidx]
          simp only [List.getD_cons_zero, List.eraseIdx_cons_zero]
          rw [ih (sel ++ [c]) cs (hsorted.of_cons)]
          rw [List.take_succ_cons]

theorem subperm_cons_both {α : Type} {a : α} {l₁ l₂ : List α} (h : List.Subperm l₁ l₂) :
    List.Subperm (a :: l₁) (a :: l₂) := by
  obtain ⟨w, pw, sw⟩ := h
  exact ⟨a :: w, pw.cons a, sw.cons₂ a⟩

theorem cons_eraseIdx_perm {α : Type} (l : List α) (i : ℕ) (hi : i < l.length) :
    (l[i] :: l.eraseIdx i).Perm l := by
  conv_rhs => rw [← List.take_append_drop i l, ← List.getElem_cons_drop l i hi]
  rw [List.eraseIdx_eq_take_drop_succ]
  exact List.perm_middle.symm

theorem mmrGo_subperm (lam : ℚ) :
    ∀ (fuel : ℕ) (sel rem : List ScoredMarket), List.Subperm (mmrGo lam fuel sel rem) rem := by
  intro fuel
  induction fuel with
  | zero => intro sel rem; exact List.nil_subperm
  | succ n ih =>
      intro sel rem
      cases rem with
      | nil => exact List.nil_subperm
      | cons c cs =>
          simp only [mmrGo]
          have hi : argmaxIdx (fun cand => mmrScore lam sel cand) (c :: cs) <
              (c :: cs).length := argmaxIdx_lt _ c cs
          rw [List.getD_eq_getElem (c :: cs) c hi]
          have hperm := cons_eraseIdx_perm (c :: cs) _ hi
          exact (subperm_cons_both (ih _ _)).trans hperm.subperm

theorem mmrGo_length (lam : ℚ) :
    ∀ (fuel : ℕ) (sel rem : List ScoredMarket),
      (mmrGo lam fuel sel rem).length = min fuel rem.length := by
  intro fuel
  induction fuel with
  | zero => intro sel rem; simp [mmrGo]
  | succ n ih =>
      intro sel rem
      cases rem with
      | nil => simp [mmrGo]
      | cons c cs =>
          simp only [mmrGo, List.length_cons]
          have hi : argmaxIdx (fun cand => mmrScore lam sel cand) (c :: cs) <
              (c :: cs).length := argmaxIdx_lt _ c cs
          rw [ih]
          rw [List.length_eraseIdx, if_pos hi]
          simp only [List.length_cons]
          omega

/-- C5, counterexample: _apply_mmr with k = 0 on a non-empty pool still seeds
one item, so it returns 1 item instead of min(0, pool size) = 0. -/
theorem c5_mmr_counterexample :
    (applyMMR [smC] 0 (7/10)).length ≠ min 0 [smC].length := by
  have h : applyMMR [smC] 0 (7/10) = [smC] := rfl
  rw [h]
  simp

/-- C5, amended: for every k ≥ 1, the MMR re-ranker returns exactly
min(k, pool size) items, never repeats an item of a duplicate-free pool, and
returns the pool itself (hence relevance-sorted input order) when k is at
least the pool size; at k = 0 on a non-empty pool the code still returns the
single seeded top item. -/
theorem c5_mmr_amended :
    ∀ (pool : List ScoredMarket) (k : ℕ) (lam : ℚ), 1 ≤ k → pool.Nodup →
      ((applyMMR pool k lam).length = min k pool.length ∧
       (applyMMR pool k lam).Nodup ∧
       (pool.length ≤ k → applyMMR pool k lam = pool)) := by
  intro pool k lam hk hnd
  by_cases h : pool.length ≤ k
  · rw [applyMMR.eq_def, if_pos h]
    exact ⟨(Nat.min_eq_right h).symm, hnd, fun _ => rfl⟩
  · cases pool with
    | nil => exact absurd (Nat.zero_le k) h
    | cons seed rest =>
        simp only [applyMMR, if_neg h]
        have hsub := mmrGo_subperm lam (k - 1) [seed] rest
        have hlen := mmrGo_length lam (k - 1) [seed] rest
        obtain ⟨hseed, hrest⟩ := List.nodup_cons.mp hnd
        refine ⟨?_, ?_, ?_⟩
        · simp only [List.length_cons, hlen]
          simp only [List.length_cons] at h
          omega
        · rw [List.nodup_cons]
          constructor
          · intro hmem
            exact hseed (hsub.subset hmem)
          · obtain ⟨w, pw, sw⟩ := hsub
            exact pw.nodup (sw.nodup hrest)
        · intro hle
          exact absurd hle h

/-- Witness for C5 at a two-element pool with k = 2 ≥ 1. -/
theorem c5_mmr_witness :
    1 ≤ 2 ∧ ([smA, smB].Nodup) ∧
      ((applyMMR [smA, smB] 2 (7/10)).length = min 2 [smA, smB].length ∧
       (applyMMR [smA, smB] 2 (7/10)).Nodup ∧
       ([smA, smB].length ≤ 2 → applyMMR [smA, smB] 2 (7/10) = [smA, smB])) := by
  have hnd : ([smA, smB] : List ScoredMarket).Nodup := by
    rw [List.nodup_cons]
    constructor
    · intro hmem
      rw [List.mem_singleton] at hmem
      have : smA.market.id = smB.market.id := by rw [hmem]
      simp [smA, smB] at this
    · exact List.nodup_singleton _
  exact ⟨by norm_num, hnd, c5_mmr_amended [smA, smB] 2 (7/10) (by norm_num) hnd⟩

/-- C1, counterexample: with lambda = 1.0 and k = 0 (which does not exceed the
pool size), _apply_mmr still returns the seeded top item instead of the first
0 items. -/
theorem c1_mmr_counterexample : applyMMR [smB] 0 1 ≠ [smB].take 0 := by
  have h : applyMMR [smB] 0 1 = [smB] := rfl
  rw [h]
  simp

/-- C1, amended: for every pool already sorted descending by recommendation
score and every k with 1 ≤ k ≤ pool size, _apply_mmr with lambda = 1.0
returns exactly the first k items; and rank_markets with diversity_lambda =
1.0 returns exactly the first k items of its score-sorted list for every k
(the MMR pass is skipped). At k = 0 the direct call still returns the seed. -/
theorem c1_mmr_lambda_one :
    (∀ (pool : List ScoredMarket) (k : ℕ), SortedByScoreDesc pool → 1 ≤ k →
        k ≤ pool.length → applyMMR pool k 1 = pool.take k) ∧
    (∀ (w : Weights) (markets : List Market) (prefs : Prefs)
        (analyses : Option (List (String × Analysis))) (up : Option UserProfile)
        (ctx : Option (List (String × ℚ))) (k : ℕ),
        rankMarkets w markets prefs analyses up ctx k 1 =
          (scoredSorted w markets prefs analyses up ctx).take k) := by
  constructor
  · intro pool k hsorted hk1 hk2
    by_cases h : pool.length ≤ k
    · rw [applyMMR.eq_def, if_pos h]
      have hkn : k = pool.length := le_antisymm hk2 h
      rw [hkn, List.take_length]
    · cases pool with
      | nil => exact absurd (Nat.zero_le k) h
      | cons seed rest =>
          simp only [applyMMR, if_neg h]
          rw [mmrGo_one_sorted (k - 1) [seed] rest hsorted.of_cons]
          obtain ⟨k', rfl⟩ : ∃ k', k = k' + 1 :=
            ⟨k - 1, (Nat.succ_pred_eq_of_pos hk1).symm⟩
          rw [Nat.add_sub_cancel, List.take_succ_cons]
  · intro w markets prefs analyses up ctx k
    simp only [rankMarkets]
    rw [if_neg (by rintro ⟨h1, _⟩; exact lt_irrefl _ h1)]

/-- Witness for C1: a sorted two-element pool with k = 1 yields its top item,
and rank_markets on the empty candidate list with lambda = 1 yields the top-k
cut of its (empty) sorted list. -/
theorem c1_mmr_lambda_one_witness :
    (SortedByScoreDesc [smA, smB] ∧ 1 ≤ 1 ∧ 1 ≤ [smA, smB].length ∧
      applyMMR [smA, smB] 1 1 = [smA, smB].take 1) ∧
    rankMarkets { } [] { } none none none 5 1 =
      (scoredSorted { } [] { } none none none).take 5 := by
  have hs : SortedByScoreDesc [smA, smB] := by
    unfold SortedByScoreDesc
    refine List.Pairwise.cons ?_ (List.pairwise_singleton _ _)
    intro b hb
    rw [List.mem_singleton] at hb
    subst hb
    norm_num [smA, smB]
  exact ⟨⟨hs, le_refl 1, by simp, c1_mmr_lambda_one.1 [smA, smB] 1 hs (le_refl 1) (by simp)⟩,
    c1_mmr_lambda_one.2 { } [] { } none none none 5⟩

theorem scoredSorted_length (w : Weights) (markets : List Market) (prefs : Prefs)
    (analyses : Option (List (String × Analysis))) (up : Option UserProfile)
    (ctx : Option (List (String × ℚ))) :
    (scoredSorted w markets prefs analyses up ctx).length = markets.length := by
  simp only [scoredSorted, scoredList]
  rw [List.length_mergeSort, List.length_map]

/-- C10: rank_markets runs the MMR pass exactly when diversity_lambda < 1 and
the number of candidates strictly exceeds k; in every other case (including
lambda < 1 with pool size equal to k) it returns exactly the first k items of
the score-sorted list. -/
theorem c10_mmr_gating :
    (∀ (w : Weights) (markets : List Market) (prefs : Prefs)
        (analyses : Option (List (String × Analysis))) (up : Option UserProfile)
        (ctx : Option (List (String × ℚ))) (k : ℕ) (lam : ℚ),
        lam < 1 → k < markets.length →
        rankMarkets w markets prefs analyses up ctx k lam =
          applyMMR (scoredSorted w markets prefs analyses up ctx) k lam) ∧
    (∀ (w : Weights) (markets : List Market) (prefs : Prefs)
        (analyses : Option (List (String × Analysis))) (up : Option UserProfile)
        (ctx : Option (List (String × ℚ))) (k : ℕ) (lam : ℚ),
        ¬ (lam < 1 ∧ k < markets.length) →
        rankMarkets w markets prefs analyses up ctx k lam =
          (scoredSorted w markets prefs analyses up ctx).take k) := by
  constructor
  · intro w markets prefs analyses up ctx k lam h1 h2
    simp only [rankMarkets]
    rw [if_pos ⟨h1, by rw [scoredSorted_length]; exact h2⟩]
  · intro w markets prefs analyses up ctx k lam h
    simp only [rankMarkets]
    rw [if_neg (by rw [scoredSorted_length]; exact h)]

/-- Witness for C10: lambda 1/2 with two candidates and k = 1 takes the MMR
branch; lambda = 1 (not < 1) with one candidate takes the plain top-k cut. -/
theorem c10_mmr_gating_witness :
    ((1:ℚ)/2 < 1 ∧ 1 < [mkt0, mkt1].length ∧
      rankMarkets { } [mkt0, mkt1] { } none none none 1 (1/2) =
        applyMMR (scoredSorted { } [mkt0, mkt1] { } none none none) 1 (1/2)) ∧
    (¬ ((1:ℚ) < 1 ∧ 0 < [mkt0].length) ∧
      rankMarkets { } [mkt0] { } none none none 0 1 =
        (scoredSorted { } [mkt0] { } none none none).take 0) :=
  ⟨⟨by norm_num, by simp,
      c10_mmr_gating.1 { } [mkt0, mkt1] { } none none none 1 (1/2) (by norm_num) (by simp)⟩,
   ⟨by norm_num, c10_mmr_gating.2 { } [mkt0] { } none none none 0 1 (by norm_num)⟩⟩

theorem scoreRiskMatch_bounds (m : Market) (p : UserProfile) (a : Option Analysis) :
    0 ≤ scoreRiskMatch m p a ∧ scoreRiskMatch m p a ≤ 100 := by
  simp only [scoreRiskMatch]
  split_ifs <;> norm_num

theorem scoreVolume_bounds (m : Market) (p : UserProfile) :
    0 ≤ scoreVolume m p ∧ scoreVolume m p ≤ 100 := by
  simp only [scoreVolume]
  split_ifs <;> norm_num

theorem scoreSentiment_bounds (a : Analysis) (p : UserProfile) :
    0 ≤ scoreSentiment a p ∧ scoreSentiment a p ≤ 100 := by
  simp only [scoreSentiment]
  cases p.sentimentPreference with
  | none => norm_num
  | some pref =>
      split_ifs <;> try norm_num
      all_goals (split_ifs <;> norm_num)

theorem scoreConfidence_bounds (a : Analysis) (p : UserProfile)
    (h : ∀ c, a.confidence = some c → 0 ≤ c ∧ c ≤ 1) :
    0 ≤ scoreConfidence a p ∧ scoreConfidence a p ≤ 100 := by
  simp only [scoreConfidence]
  cases hc : a.confidence with
  | none =>
      simp only [Option.getD_none]
      split_ifs <;> norm_num
  | some c =>
      simp only [Option.getD_some]
      have hb := h c hc
      split_ifs
      · norm_num
      · constructor
        · exact mul_nonneg hb.1 (by norm_num)
        · nlinarith [hb.2]

theorem scoreTrend_bounds (m : Market) (a : Option Analysis)
    (ctx : Option (List (String × ℚ)))
    (hbuzz : ∀ b, Option.bind a Analysis.socialBuzz = some b → 0 ≤ b)
    (hctx : ∀ l, ctx = some l → ∀ tw ∈ l, 0 ≤ tw.2) :
    0 ≤ scoreTrend m a ctx ∧ scoreTrend m a ctx ≤ 100 := by
  simp only [scoreTrend]
  refine ⟨le_min (by norm_num) ?_, min_le_left _ _⟩
  refine add_nonneg (add_nonneg (add_nonneg (add_nonneg ?_ ?_) ?_) ?_) ?_
  · split_ifs <;> norm_num
  · split_ifs <;> norm_num
  · split_ifs <;> norm_num
  · cases hb : Option.bind a Analysis.socialBuzz with
    | none => simp
    | some b => simpa using mul_nonneg (hbuzz b hb) (by norm_num : (0:ℚ) ≤ 15)
  · cases ctx with
    | none => simp
    | some l =>
        cases hf : l.find? (fun tw => strIn (lowerStr tw.1) (marketTextTD m)) with
        | none => simp [hf]
        | some tw =>
            simp only [hf]
            exact mul_nonneg (hctx l rfl tw (List.mem_of_find?_eq_some hf))
              (by norm_num : (0:ℚ) ≤ 15)

theorem getWeight_nonneg {l : List (String × ℚ)} {k : String}
    (hl : ∀ kv ∈ l, 0 ≤ kv.2) : 0 ≤ getWeight l k := by
  unfold getWeight
  cases hf : alistFind l k with
  | none => norm_num
  | some v => simpa using hl _ (alistFind_mem_of_eq_some hf)

theorem catMatch_foldl_snd_nonneg (text : String) (cw : List (String × ℚ))
    (hcw : ∀ kv ∈ cw, 0 ≤ kv.2) :
    ∀ (cats : List String) (acc : ℕ × ℚ), 0 ≤ acc.2 →
      0 ≤ (List.foldl (catMatchStep text cw) acc cats).2 := by
  intro cats
  induction cats with
  | nil => intro acc h; exact h
  | cons c cs ih =>
      intro acc h
      rw [List.foldl_cons]
      apply ih
      simp only [catMatchStep]
      cases hf : alistFind genZCategories (lowerStr c) with
      | none => simpa using h
      | some kws =>
          show 0 ≤ (if (kws.any fun kw => strIn kw text) = true then
            (acc.1 + 1, acc.2 + getWeight cw (lowerStr c)) else acc).2
          by_cases hany : (kws.any fun kw => strIn kw text) = true
          · rw [if_pos hany]
            exact add_nonneg h (getWeight_nonneg hcw)
          · rw [if_neg hany]
            exact h

theorem scoreCategoryMatch_bounds (m : Market) (p : UserProfile)
    (hcw : ∀ kv ∈ p.categoryWeights, 0 ≤ kv.2) :
    0 ≤ scoreCategoryMatch m p ∧ scoreCategoryMatch m p ≤ 100 := by
  simp only [scoreCategoryMatch]
  split_ifs with h1 h2
  · norm_num
  · have hr2 : 0 ≤ (List.foldl (catMatchStep (marketTextCat m) p.categoryWeights)
        (0, 0) p.categories).2 :=
      catMatch_foldl_snd_nonneg _ _ hcw _ _ (le_refl 0)
    have hlen : (0:ℚ) ≤ (p.categories.length : ℚ) := by positivity
    have hb1lo : (0:ℚ) ≤ min 100
        (((List.foldl (catMatchStep (marketTextCat m) p.categoryWeights)
          (0, 0) p.categories).1 : ℚ) / (p.categories.length : ℚ) * 100) :=
      le_min (by norm_num) (by positivity)
    have hb2lo : (0:ℚ) ≤ min 100
        ((List.foldl (catMatchStep (marketTextCat m) p.categoryWeights)
          (0, 0) p.categories).2 / (p.categories.length : ℚ) * 100) :=
      le_min (by norm_num) (mul_nonneg (div_nonneg hr2 hlen) (by norm_num))
    have hb1hi := min_le_left (100:ℚ)
      (((List.foldl (catMatchStep (marketTextCat m) p.categoryWeights)
        (0, 0) p.categories).1 : ℚ) / (p.categories.length : ℚ) * 100)
    have hb2hi := min_le_left (100:ℚ)
      ((List.foldl (catMatchStep (marketTextCat m) p.categoryWeights)
        (0, 0) p.categories).2 / (p.categories.length : ℚ) * 100)
    constructor <;> linarith
  · norm_num

theorem interTags_le_unionTags (a b : List String) : interTags a b ≤ unionTags a b :=
  le_trans (List.length_filter_le _ a) (Nat.le_add_right _ _)

theorem semanticFallback_bounds (m : Market) (p : UserProfile) :
    0 ≤ semanticFallback m p ∧ semanticFallback m p ≤ 100 := by
  simp only [semanticFallback]
  split_ifs with h1 h2
  · norm_num
  · have hle : (interTags (detectCategory ((m.title.getD "") ++ " " ++ (m.description.getD "")))
        (p.categories.dedup) : ℚ) ≤
        (unionTags (detectCategory ((m.title.getD "") ++ " " ++ (m.description.getD "")))
          (p.categories.dedup) : ℚ) := by
      exact_mod_cast interTags_le_unionTags _ _
    have hpos : (0:ℚ) < (unionTags (detectCategory ((m.title.getD "") ++ " " ++ (m.description.getD "")))
        (p.categories.dedup) : ℚ) := by exact_mod_cast h2
    constructor
    · apply mul_nonneg _ (by norm_num)
      positivity
    · have : (interTags (detectCategory ((m.title.getD "") ++ " " ++ (m.description.getD "")))
          (p.categories.dedup) : ℚ) /
          (unionTags (detectCategory ((m.title.getD "") ++ " " ++ (m.description.getD "")))
            (p.categories.dedup) : ℚ) ≤ 1 := (div_le_one hpos).mpr hle
      nlinarith
  · norm_num

theorem scoreSemantic_bounds (m : Market) (p : UserProfile) (a : Option Analysis) :
    0 ≤ scoreSemantic m p a ∧ scoreSemantic m p a ≤ 100 := by
  have hfb := semanticFallback_bounds m p
  have hfbR : (0:ℝ) ≤ ((semanticFallback m p : ℚ) : ℝ) ∧
      ((semanticFallback m p : ℚ) : ℝ) ≤ 100 := by
    constructor
    · exact_mod_cast hfb.1
    · exact_mod_cast hfb.2
  unfold scoreSemantic
  cases hpe : p.interestEmbedding with
  | none => exact hfbR
  | some ue =>
      cases hae : Option.bind a Analysis.embedding with
      | none => exact hfbR
      | some me =>
          show (0 ≤ if ue.isEmpty = true then ((semanticFallback m p : ℚ) : ℝ)
              else (cosineSimilarity ue me + 1) * 50) ∧
            ((if ue.isEmpty = true then ((semanticFallback m p : ℚ) : ℝ)
              else (cosineSimilarity ue me + 1) * 50) ≤ 100)
          split_ifs with hemp
          · exact hfbR
          · have hcos := abs_le.mp (cosineSimilarity_abs_le ue me)
            constructor
            · nlinarith [hcos.1]
            · nlinarith [hcos.2]

theorem normalizeW_nonneg (w : Weights)
    (h : 0 ≤ w.semantic ∧ 0 ≤ w.category ∧ 0 ≤ w.risk ∧ 0 ≤ w.trend ∧ 0 ≤ w.volume ∧
      0 ≤ w.confidence ∧ 0 ≤ w.sentiment) :
    0 ≤ (normalizeW w).semantic ∧ 0 ≤ (normalizeW w).category ∧ 0 ≤ (normalizeW w).risk ∧
      0 ≤ (normalizeW w).trend ∧ 0 ≤ (normalizeW w).volume ∧ 0 ≤ (normalizeW w).confidence ∧
      0 ≤ (normalizeW w).sentiment := by
  obtain ⟨h1, h2, h3, h4, h5, h6, h7⟩ := h
  unfold normalizeW
  split_ifs with hs
  · exact ⟨div_nonneg h1 hs.le, div_nonneg h2 hs.le, div_nonneg h3 hs.le,
      div_nonneg h4 hs.le, div_nonneg h5 hs.le, div_nonneg h6 hs.le, div_nonneg h7 hs.le⟩
  · exact ⟨h1, h2, h3, h4, h5, h6, h7⟩

theorem mkBreakdown_bounds (m : Market) (p : UserProfile) (a : Option Analysis)
    (ctx : Option (List (String × ℚ)))
    (hconf : ∀ an, a = some an → ∀ c, an.confidence = some c → 0 ≤ c ∧ c ≤ 1)
    (hbuzz : ∀ b, Option.bind a Analysis.socialBuzz = some b → 0 ≤ b ∧ b ≤ 1)
    (hctx : ∀ l, ctx = some l → ∀ tw ∈ l, 0 ≤ tw.2)
    (hcw : ∀ kv ∈ p.categoryWeights, 0 ≤ kv.2) :
    BreakdownInBounds (mkBreakdown m p a ctx) := by
  unfold BreakdownInBounds mkBreakdown
  refine ⟨scoreSemantic_bounds m p a, scoreCategoryMatch_bounds m p hcw,
    scoreRiskMatch_bounds m p a,
    scoreTrend_bounds m a ctx (fun b hb => (hbuzz b hb).1) hctx,
    scoreVolume_bounds m p, ?_, ?_⟩
  · cases a with
    | none => norm_num
    | some an => exact scoreConfidence_bounds an p (hconf an rfl)
  · cases a with
    | none => norm_num
    | some an => exact scoreSentiment_bounds an p

theorem scoreMarketTotal_bounds (w : Weights) (bd : Breakdown)
    (hw : 0 ≤ w.semantic ∧ 0 ≤ w.category ∧ 0 ≤ w.risk ∧ 0 ≤ w.trend ∧ 0 ≤ w.volume ∧
      0 ≤ w.confidence ∧ 0 ≤ w.sentiment)
    (hbd : BreakdownInBounds bd) :
    0 ≤ scoreMarketTotal w bd ∧ scoreMarketTotal w bd ≤ 100 := by
  obtain ⟨⟨hs1, _⟩, ⟨hc1, _⟩, ⟨hr1, _⟩, ⟨ht1, _⟩, ⟨hv1, _⟩, ⟨hf1, _⟩, ⟨hn1, _⟩⟩ := hbd
  obtain ⟨hw1, hw2, hw3, hw4, hw5, hw6, hw7⟩ := hw
  unfold scoreMarketTotal
  refine ⟨le_min (by norm_num) ?_, min_le_left _ _⟩
  refine add_nonneg (add_nonneg (add_nonneg (add_nonneg (add_nonneg
    (add_nonneg ?_ ?_) ?_) ?_) ?_) ?_) ?_
  · exact mul_nonneg hs1 (by exact_mod_cast hw1)
  · exact mul_nonneg (by exact_mod_cast hc1) (by exact_mod_cast hw2)
  · exact mul_nonneg (by exact_mod_cast hr1) (by exact_mod_cast hw3)
  · exact mul_nonneg (by exact_mod_cast ht1) (by exact_mod_cast hw4)
  · exact mul_nonneg (by exact_mod_cast hv1) (by exact_mod_cast hw5)
  · exact mul_nonneg (by exact_mod_cast hf1) (by exact_mod_cast hw6)
  · exact mul_nonneg (by exact_mod_cast hn1) (by exact_mod_cast hw7)

/-- C6: under the stated preconditions (confidence and social buzz in [0,1],
non-negative context-token weights, category weights in [0,2], and a
non-negative weight vector as required by the data model), every sub-score of
the breakdown produced by score_market lies in [0,100], and so does the
clamped weighted total. -/
theorem c6_score_bounds :
    ∀ (w : Weights) (m : Market) (prefs : Prefs) (p : UserProfile) (a : Option Analysis)
      (ctx : Option (List (String × ℚ))),
      (0 ≤ w.semantic ∧ 0 ≤ w.category ∧ 0 ≤ w.risk ∧ 0 ≤ w.trend ∧ 0 ≤ w.volume ∧
        0 ≤ w.confidence ∧ 0 ≤ w.sentiment) →
      (∀ an, a = some an → ∀ c, an.confidence = some c → 0 ≤ c ∧ c ≤ 1) →
      (∀ b, Option.bind a Analysis.socialBuzz = some b → 0 ≤ b ∧ b ≤ 1) →
      (∀ l, ctx = some l → ∀ tw ∈ l, 0 ≤ tw.2) →
      (∀ kv ∈ p.categoryWeights, 0 ≤ kv.2 ∧ kv.2 ≤ 2) →
      (BreakdownInBounds (scoreMarket (normalizeW w) m prefs a (some p) ctx).2 ∧
       0 ≤ (scoreMarket (normalizeW w) m prefs a (some p) ctx).1 ∧
       (scoreMarket (normalizeW w) m prefs a (some p) ctx).1 ≤ 100) := by
  intro w m prefs p a ctx hw hconf hbuzz hctx hcw
  have hcw' : ∀ kv ∈ p.categoryWeights, 0 ≤ kv.2 := fun kv h => (hcw kv h).1
  have hbd : BreakdownInBounds (mkBreakdown m p a ctx) :=
    mkBreakdown_bounds m p a ctx hconf hbuzz hctx hcw'
  have heq : scoreMarket (normalizeW w) m prefs a (some p) ctx =
      (scoreMarketTotal (normalizeW w) (mkBreakdown m p a ctx), mkBreakdown m p a ctx) := rfl
  rw [heq]
  have htot := scoreMarketTotal_bounds (normalizeW w) (mkBreakdown m p a ctx)
    (normalizeW_nonneg w hw) hbd
  exact ⟨hbd, htot.1, htot.2⟩

/-- Witness for C6 at the default weight vector, a bare market and profile,
and no enrichment or context. -/
theorem c6_score_bounds_witness :
    (0 ≤ ({ } : Weights).semantic ∧ 0 ≤ ({ } : Weights).category ∧ 0 ≤ ({ } : Weights).risk ∧
      0 ≤ ({ } : Weights).trend ∧ 0 ≤ ({ } : Weights).volume ∧
      0 ≤ ({ } : Weights).confidence ∧ 0 ≤ ({ } : Weights).sentiment) ∧
    (BreakdownInBounds (scoreMarket (normalizeW { }) mkt0 { } none
        (some { userId := "w6" }) none).2 ∧
     0 ≤ (scoreMarket (normalizeW { }) mkt0 { } none (some { userId := "w6" }) none).1 ∧
     (scoreMarket (normalizeW { }) mkt0 { } none (some { userId := "w6" }) none).1 ≤ 100) :=
  ⟨by norm_num,
   c6_score_bounds { } mkt0 { } { userId := "w6" } none none (by norm_num)
     (fun an h => by cases h) (fun b h => by cases h) (fun l h => by cases h)
     (fun kv h => by cases h)⟩
